import Mathlib

/-!
Verification of the quorum-decision and membership-reconfiguration core of a
Raft-family consensus engine (majority/joint quorum arithmetic and the
configuration-change state machine), embedded shallowly from the Rust source
`src/quorum.rs`, `src/quorum/majority.rs`, `src/quorum/joint.rs` and
`src/confchange/changer.rs`.
-/

namespace Raft

/-- `u64::MAX`, the sentinel "infinitely committed" position of the empty quorum. -/
def UMAX : Nat := 18446744073709551615

/-- Modelled from the spec: quorum size is `floor(n/2) + 1` for `n` voters
(`crate::majority` is declared outside the provided src tree; the spec fixes
its value in §3 "Quorum size = floor(n/2) + 1"). -/
def majority (n : Nat) : Nat := n / 2 + 1

/-- A Raft log position together with its failure-domain group
(`Index` in `src/quorum.rs`; `group_id = 0` means ungrouped). -/
structure Index where
  index : Nat
  group_id : Nat
deriving DecidableEq, Repr

instance : Inhabited Index := ⟨⟨0, 0⟩⟩

/-- Outcome of a vote (`VoteResult` in `src/quorum.rs`). -/
inductive VoteResult where
  | Pending
  | Lost
  | Won
deriving DecidableEq, Repr

/-- One step of a stable insertion into a list already sorted descending by
`index`: the new entry goes in front of the first entry whose index is not
larger, hence after every earlier entry of equal index. -/
def insertDesc (e : Index) : List Index → List Index
  | [] => [e]
  | x :: xs => if x.index ≤ e.index then e :: x :: xs else x :: insertDesc e xs

/-- Stable descending sort by `index`: extensionally the unique output of any
stable sort under the comparator `|a, b| b.index.cmp(&a.index)` used by
`matched.sort_by` in `majority.rs`. -/
def sortDesc : List Index → List Index
  | [] => []
  | x :: xs => insertDesc x (sortDesc xs)

/-- The group-commit scan loop of `Configuration::committed_index`
(`majority.rs` lines 80-101), with the final fallbacks folded in:
`qci` is the plain quorum commit index, `lastIdx` the minimum matched index
(`matched.last()`), `checked` the group id checked so far and `single` the
`single_group` flag. -/
def groupCommitScan (qci : Nat) (lastIdx : Nat) :
    Nat → Bool → List Index → Nat × Bool
  | _, single, [] => if single then (qci, false) else (lastIdx, false)
  | checked, single, m :: rest =>
    if m.group_id = 0 then groupCommitScan qci lastIdx checked false rest
    else if checked = 0 then groupCommitScan qci lastIdx m.group_id single rest
    else if checked = m.group_id then groupCommitScan qci lastIdx checked single rest
    else (min m.index qci, true)

/-- The body of `Configuration::committed_index` after the acknowledged
entries have been collected (one per voter, in the voter iteration order). -/
def committedIndexEntries (useGroupCommit : Bool) (entries : List Index) : Nat × Bool :=
  let matched := sortDesc entries
  let quorum := majority matched.length
  let quorumIndex := matched.getD (quorum - 1) ⟨0, 0⟩
  if !useGroupCommit then (quorumIndex.index, false)
  else
    groupCommitScan quorumIndex.index ((matched.getLastD ⟨0, 0⟩).index)
      quorumIndex.group_id true matched

/-- Each voter's acknowledged `Index`, defaulting to position 0 group 0 when
the indexer knows nothing (`l.acked_index(*v).unwrap_or_default()`). -/
def ackedEntries (voters : List Nat) (l : Nat → Option Index) : List Index :=
  voters.map fun v => (l v).getD ⟨0, 0⟩

/-- `MajorityConfig::committed_index` (`majority.rs` lines 48-102). The voter
set is given as a duplicate-free list in the hash-set iteration order. -/
def committedIndex (voters : List Nat) (useGroupCommit : Bool)
    (l : Nat → Option Index) : Nat × Bool :=
  if voters = [] then (UMAX, true)
  else committedIndexEntries useGroupCommit (ackedEntries voters l)

/-- `MajorityConfig::vote_result` (`majority.rs` lines 108-132). -/
def voteResult (voters : List Nat) (check : Nat → Option Bool) : VoteResult :=
  if voters = [] then .Won
  else
    let yes := voters.countP fun v => check v == some true
    let missing := voters.countP fun v => check v == none
    let q := majority voters.length
    if yes ≥ q then .Won
    else if yes + missing ≥ q then .Pending
    else .Lost

/-- `JointConfig::committed_index` (`joint.rs` lines 44-48). -/
def jointCommittedIndex (incoming outgoing : List Nat) (useGroupCommit : Bool)
    (l : Nat → Option Index) : Nat × Bool :=
  let i := committedIndex incoming useGroupCommit l
  let o := committedIndex outgoing useGroupCommit l
  (min i.1 o.1, i.2 && o.2)

/-- `JointConfig::vote_result` (`joint.rs` lines 53-64). -/
def jointVoteResult (incoming outgoing : List Nat)
    (check : Nat → Option Bool) : VoteResult :=
  match voteResult incoming check, voteResult outgoing check with
  | .Won, .Won => .Won
  | .Lost, _ => .Lost
  | _, .Lost => .Lost
  | _, _ => .Pending

/-- Spec-side scan, written from the words of the group-commit refinement in
spec §4.1: walk the entries in descending position order threading the
"checked" group id (starting from the majority commit entry's group id, a
zero checked id being replaced by the first nonzero group id observed), and
report the first entry whose nonzero group id differs from the checked one. -/
def specConflictScan (checked : Nat) : List Index → Option Index
  | [] => none
  | m :: rest =>
    if m.group_id = 0 then specConflictScan checked rest
    else if checked = 0 then specConflictScan m.group_id rest
    else if checked = m.group_id then specConflictScan checked rest
    else some m

/-- Minimum of a nonempty list of positions (0 for the empty list). -/
def minPos : List Nat → Nat
  | [] => 0
  | x :: xs => xs.foldl min x

/-- Spec-side description of `committed_index(use_group_commit = true)` on a
non-empty configuration, following the claim's words: from the majority
commit index (rank `quorum-1` of the positions sorted descending) scan for a
cross-group conflict; on conflict return the min of the conflicting position
and the majority commit index with flag true; with no conflict and no
group-0 entry return the majority commit index with flag false; otherwise
return the minimum of all acknowledged positions with flag false. -/
def specGroupCommit (voters : List Nat) (l : Nat → Option Index) : Nat × Bool :=
  let entries := ackedEntries voters l
  let sorted := sortDesc entries
  let q := majority voters.length
  let qi := sorted.getD (q - 1) ⟨0, 0⟩
  match specConflictScan qi.group_id sorted with
  | some m => (min m.index qi.index, true)
  | none =>
    if entries.all (fun e => e.group_id != 0) then (qi.index, false)
    else (minPos (entries.map (·.index)), false)

/-! ## Configuration changes (`src/confchange/changer.rs`) -/

instance {ε α : Type} [DecidableEq ε] [DecidableEq α] : DecidableEq (Except ε α) :=
  fun a b =>
    match a, b with
    | .error e, .error f =>
      if h : e = f then .isTrue (congrArg Except.error h)
      else .isFalse (fun hc => h (Except.error.inj hc))
    | .error _, .ok _ => .isFalse (fun hc => Except.noConfusion hc)
    | .ok _, .error _ => .isFalse (fun hc => Except.noConfusion hc)
    | .ok x, .ok y =>
      if h : x = y then .isTrue (congrArg Except.ok h)
      else .isFalse (fun hc => h (Except.ok.inj hc))

theorem except_isOk_error {α : Type} (e : String) :
    (Except.error e : Except String α).isOk = false := rfl

theorem except_isOk_ok {α : Type} (x : α) :
    (Except.ok x : Except String α).isOk = true := rfl

/-- `MapChangeType` in `changer.rs`. -/
inductive MapChangeType where
  | Add
  | Remove
deriving DecidableEq, Repr

/-- Ordered list of progress-map edits returned to the caller. -/
abbrev MapChange := List (Nat × MapChangeType)

/-- `IncrChangeMap`: staged progress-map updates over an immutable base.
Only membership of the base progress map is consulted by the changer, so the
base is embedded as its set of tracked ids. -/
structure IncrChangeMap where
  changes : MapChange
  base : Finset Nat
deriving DecidableEq

/-- `IncrChangeMap::contains`: the last staged change for the id wins,
falling back to the base map. -/
def IncrChangeMap.contains (m : IncrChangeMap) (id : Nat) : Bool :=
  match m.changes.reverse.find? (fun p => p.1 == id) with
  | some (_, .Remove) => false
  | some (_, .Add) => true
  | none => decide (id ∈ m.base)

/-- `ConfChangeType` of `eraftpb`. -/
inductive ConfChangeType where
  | AddNode
  | AddLearnerNode
  | RemoveNode
deriving DecidableEq, Repr

/-- A single configuration-change edit. -/
structure ConfChangeSingle where
  node_id : Nat
  change_type : ConfChangeType
deriving DecidableEq, Repr

/-- Modelled from the spec: the tracked membership `Configuration` of
`crate::tracker` (§3 of the spec; `src/tracker/tracker.rs` is only a sketch):
a joint pair of voter sets plus learners, staged learners and the auto-leave
flag, exactly the fields `changer.rs` manipulates. -/
structure TrackerConfig where
  incoming : Finset Nat
  outgoing : Finset Nat
  learners : Finset Nat
  learners_next : Finset Nat
  auto_leave : Bool
deriving DecidableEq

/-- `Changer::init_progress`. -/
def initProgress (cfg : TrackerConfig) (prs : IncrChangeMap) (id : Nat)
    (isLearner : Bool) : TrackerConfig × IncrChangeMap :=
  (if isLearner then { cfg with learners := insert id cfg.learners }
   else { cfg with incoming := insert id cfg.incoming },
   { prs with changes := prs.changes ++ [(id, .Add)] })

/-- `Changer::make_voter`. -/
def makeVoter (cfg : TrackerConfig) (prs : IncrChangeMap) (id : Nat) :
    TrackerConfig × IncrChangeMap :=
  if !prs.contains id then initProgress cfg prs id false
  else
    ({ cfg with incoming := insert id cfg.incoming,
                learners := cfg.learners.erase id,
                learners_next := cfg.learners_next.erase id }, prs)

/-- `Changer::make_learner`. -/
def makeLearner (cfg : TrackerConfig) (prs : IncrChangeMap) (id : Nat) :
    TrackerConfig × IncrChangeMap :=
  if !prs.contains id then initProgress cfg prs id true
  else if id ∈ cfg.learners then (cfg, prs)
  else
    let cfg' := { cfg with incoming := cfg.incoming.erase id,
                           learners := cfg.learners.erase id,
                           learners_next := cfg.learners_next.erase id }
    if id ∈ cfg'.outgoing then
      ({ cfg' with learners_next := insert id cfg'.learners_next }, prs)
    else ({ cfg' with learners := insert id cfg'.learners }, prs)

/-- `Changer::remove`. -/
def removeNode (cfg : TrackerConfig) (prs : IncrChangeMap) (id : Nat) :
    TrackerConfig × IncrChangeMap :=
  if !prs.contains id then (cfg, prs)
  else
    let cfg' := { cfg with incoming := cfg.incoming.erase id,
                           learners := cfg.learners.erase id,
                           learners_next := cfg.learners_next.erase id }
    let prs' :=
      if id ∉ cfg'.outgoing then
        { prs with changes := prs.changes ++ [(id, MapChangeType.Remove)] }
      else prs
    (cfg', prs')

/-- The edit loop of `Changer::apply` (id 0 is a reserved no-op). -/
def applyStage (start : TrackerConfig × IncrChangeMap)
    (ccs : List ConfChangeSingle) : TrackerConfig × IncrChangeMap :=
  ccs.foldl (fun cp cc =>
    if cc.node_id = 0 then cp
    else match cc.change_type with
      | .AddNode => makeVoter cp.1 cp.2 cc.node_id
      | .AddLearnerNode => makeLearner cp.1 cp.2 cc.node_id
      | .RemoveNode => removeNode cp.1 cp.2 cc.node_id) start

/-- `Changer::apply`: run the edits, then fail if no incoming voter is left. -/
def applyCcs (cfg : TrackerConfig) (prs : IncrChangeMap)
    (ccs : List ConfChangeSingle) : Except String (TrackerConfig × IncrChangeMap) :=
  if (applyStage (cfg, prs) ccs).1.incoming = ∅ then .error "removed all voters"
  else .ok (applyStage (cfg, prs) ccs)

/-- `check_invariants` (`changer.rs` lines 290-360): every tracked id has a
progress entry, learners are disjoint from both voter halves, staged
learners are outgoing voters, and a non-joint configuration has no staged
learners and no auto-leave flag. -/
def checkInvariants (cfg : TrackerConfig) (prs : IncrChangeMap) :
    Except String Unit :=
  if ¬ (∀ id ∈ cfg.incoming ∪ cfg.outgoing, prs.contains id = true) then
    .error "no progress for voter"
  else if ¬ (∀ id ∈ cfg.learners, prs.contains id = true) then
    .error "no progress for learner"
  else if ¬ (∀ id ∈ cfg.learners, id ∉ cfg.outgoing) then
    .error "learner is also an outgoing voter"
  else if ¬ (∀ id ∈ cfg.learners, id ∉ cfg.incoming) then
    .error "learner is also an incoming voter"
  else if ¬ (∀ id ∈ cfg.learners_next, prs.contains id = true) then
    .error "no progress for staged learner"
  else if ¬ (∀ id ∈ cfg.learners_next, id ∈ cfg.outgoing) then
    .error "staged learner is not an outgoing voter"
  else if cfg.outgoing = ∅ ∧ cfg.learners_next ≠ ∅ then
    .error "staged learners must be empty when not joint"
  else if cfg.outgoing = ∅ ∧ cfg.auto_leave then
    .error "auto leave must be false when not joint"
  else .ok ()

/-- Setting of the `auto_leave` flag (`cfg.auto_leave = auto_leave`). -/
def setAutoLeave (c : TrackerConfig) (b : Bool) : TrackerConfig :=
  { c with auto_leave := b }

/-- The configuration and staged progress map built by `enter_joint` before
its final invariant check: outgoing frozen as a copy of incoming, edits
applied, auto-leave flag set. -/
def enterJointStage (cfg₀ : TrackerConfig) (base : Finset Nat)
    (autoLeave : Bool) (ccs : List ConfChangeSingle) :
    TrackerConfig × IncrChangeMap :=
  (setAutoLeave (applyStage ({ cfg₀ with outgoing := cfg₀.outgoing ∪ cfg₀.incoming },
      ⟨[], base⟩) ccs).1 autoLeave,
    (applyStage ({ cfg₀ with outgoing := cfg₀.outgoing ∪ cfg₀.incoming },
      ⟨[], base⟩) ccs).2)

/-- `Changer::enter_joint` (`changer.rs` lines 69-95). -/
def enterJoint (cfg₀ : TrackerConfig) (base : Finset Nat) (autoLeave : Bool)
    (ccs : List ConfChangeSingle) : Except String (TrackerConfig × MapChange) :=
  if cfg₀.outgoing ≠ ∅ then .error "configuration is already joint"
  else match checkInvariants cfg₀ ⟨[], base⟩ with
    | .error e => .error e
    | .ok _ =>
      if cfg₀.incoming = ∅ then .error "cannot make a zero-voter config joint"
      else
        match applyCcs { cfg₀ with outgoing := cfg₀.outgoing ∪ cfg₀.incoming }
            ⟨[], base⟩ ccs with
        | .error e => .error e
        | .ok s =>
          match checkInvariants (setAutoLeave s.1 autoLeave) s.2 with
          | .error e => .error e
          | .ok _ => .ok (setAutoLeave s.1 autoLeave, s.2.changes)

/-- Structural insertion into an ascending list (kernel-computable). -/
def insertAsc (e : Nat) : List Nat → List Nat
  | [] => [e]
  | x :: xs => if e ≤ x then e :: x :: xs else x :: insertAsc e xs

/-- Structural ascending insertion sort (kernel-computable). -/
def sortAsc : List Nat → List Nat
  | [] => []
  | x :: xs => insertAsc x (sortAsc xs)

theorem insertAsc_perm (e : Nat) (l : List Nat) : (insertAsc e l).Perm (e :: l) := by
  induction l with
  | nil => simp [insertAsc]
  | cons x xs ih =>
    simp only [insertAsc]
    split
    · exact List.Perm.refl _
    · exact (ih.cons x).trans (List.Perm.swap e x xs)

theorem sortAsc_perm (l : List Nat) : (sortAsc l).Perm l := by
  induction l with
  | nil => simp [sortAsc]
  | cons x xs ih => exact (insertAsc_perm x (sortAsc xs)).trans (ih.cons x)

theorem insertAsc_sorted (e : Nat) (l : List Nat) (h : l.Sorted (· ≤ ·)) :
    (insertAsc e l).Sorted (· ≤ ·) := by
  induction l with
  | nil => simp [insertAsc]
  | cons x xs ih =>
    rw [List.sorted_cons] at h
    simp only [insertAsc]
    split
    · rename_i hex
      rw [List.sorted_cons]
      refine ⟨?_, List.sorted_cons.2 h⟩
      intro y hy
      rcases List.mem_cons.1 hy with rfl | hy'
      · exact hex
      · exact le_trans hex (h.1 y hy')
    · rename_i hex
      push_neg at hex
      rw [List.sorted_cons]
      refine ⟨?_, ih h.2⟩
      intro y hy
      have : y ∈ e :: xs := (insertAsc_perm e xs).mem_iff.1 hy
      rcases List.mem_cons.1 this with rfl | hy'
      · exact le_of_lt hex
      · exact h.1 y hy'

theorem sortAsc_sorted (l : List Nat) : (sortAsc l).Sorted (· ≤ ·) := by
  induction l with
  | nil => simp [sortAsc]
  | cons x xs ih => exact insertAsc_sorted x (sortAsc xs) ih

theorem sortAsc_eq_of_perm {l₁ l₂ : List Nat} (h : l₁.Perm l₂) :
    sortAsc l₁ = sortAsc l₂ :=
  List.eq_of_perm_of_sorted ((sortAsc_perm l₁).trans (h.trans (sortAsc_perm l₂).symm))
    (sortAsc_sorted _) (sortAsc_sorted _)

/-- Ascending enumeration of an id set: one fixed serialization of the
hash-set iteration order (the claims never depend on the order of the
emitted progress removals). -/
def finsetAsc (s : Finset Nat) : List Nat :=
  Quotient.liftOn s.val sortAsc fun _ _ hp => sortAsc_eq_of_perm hp

/-- The configuration and staged progress map built by `leave_joint` before
its final invariant check: staged learners promoted, progress removals
emitted for outgoing voters that are neither incoming voters nor learners,
outgoing cleared. The removals are emitted in ascending id order, one
serialization of the hash-set iteration order. -/
def leaveJointStage (cfg₀ : TrackerConfig) (base : Finset Nat) :
    TrackerConfig × IncrChangeMap :=
  let learners' := cfg₀.learners ∪ cfg₀.learners_next
  let removes := (finsetAsc (cfg₀.outgoing.filter
      (fun id => id ∉ cfg₀.incoming ∧ id ∉ learners'))).map
      (fun id => (id, MapChangeType.Remove))
  ({ cfg₀ with learners := learners', learners_next := ∅,
               outgoing := ∅, auto_leave := false }, ⟨removes, base⟩)

/-- `Changer::leave_joint` (`changer.rs` lines 110-135). -/
def leaveJoint (cfg₀ : TrackerConfig) (base : Finset Nat) :
    Except String (TrackerConfig × MapChange) :=
  if cfg₀.outgoing = ∅ then .error "cannot leave a non-joint config"
  else match checkInvariants cfg₀ ⟨[], base⟩ with
    | .error e => .error e
    | .ok _ =>
      if cfg₀.outgoing = ∅ then .error "configuration is not joint"
      else
        match checkInvariants (leaveJointStage cfg₀ base).1
            (leaveJointStage cfg₀ base).2 with
        | .error e => .error e
        | .ok _ => .ok ((leaveJointStage cfg₀ base).1,
            (leaveJointStage cfg₀ base).2.changes)

/-- `Changer::simple` (`changer.rs` lines 141-162). -/
def simpleChange (cfg₀ : TrackerConfig) (base : Finset Nat)
    (ccs : List ConfChangeSingle) : Except String (TrackerConfig × MapChange) :=
  if cfg₀.outgoing ≠ ∅ then .error "cannot apply simple config change in joint config"
  else match checkInvariants cfg₀ ⟨[], base⟩ with
    | .error e => .error e
    | .ok _ =>
      match applyCcs cfg₀ ⟨[], base⟩ ccs with
      | .error e => .error e
      | .ok s =>
        if 1 < ((s.1.incoming \ cfg₀.incoming) ∪ (cfg₀.incoming \ s.1.incoming)).card then
          .error "more than one voter changed without entering joint config"
        else match checkInvariants s.1 s.2 with
          | .error e => .error e
          | .ok _ => .ok (s.1, s.2.changes)

/-! ## Sorting lemmas -/

/-- Descending sortedness by position. -/
def SortedDesc (s : List Index) : Prop :=
  s.Pairwise fun a b => b.index ≤ a.index

theorem insertDesc_perm (e : Index) (l : List Index) :
    (insertDesc e l).Perm (e :: l) := by
  induction l with
  | nil => simp [insertDesc]
  | cons x xs ih =>
    simp only [insertDesc]
    split
    · exact List.Perm.refl _
    · exact ((ih.cons x).trans (List.Perm.swap e x xs))

theorem sortDesc_perm (l : List Index) : (sortDesc l).Perm l := by
  induction l with
  | nil => simp [sortDesc]
  | cons x xs ih => exact (insertDesc_perm x (sortDesc xs)).trans (ih.cons x)

theorem sortDesc_length (l : List Index) : (sortDesc l).length = l.length :=
  (sortDesc_perm l).length_eq

theorem mem_sortDesc {x : Index} {l : List Index} : x ∈ sortDesc l ↔ x ∈ l :=
  (sortDesc_perm l).mem_iff

theorem insertDesc_sorted (e : Index) (l : List Index) (h : SortedDesc l) :
    SortedDesc (insertDesc e l) := by
  induction l with
  | nil => simp [insertDesc, SortedDesc]
  | cons x xs ih =>
    rw [SortedDesc, List.pairwise_cons] at h
    simp only [insertDesc]
    split
    · rename_i hxe
      refine List.Pairwise.cons ?_ (List.Pairwise.cons h.1 h.2)
      intro y hy
      rcases List.mem_cons.1 hy with rfl | hy
      · exact hxe
      · exact le_trans (h.1 y hy) hxe
    · rename_i hxe
      push_neg at hxe
      refine List.Pairwise.cons ?_ (ih h.2)
      intro y hy
      have : y ∈ e :: xs := (insertDesc_perm e xs).mem_iff.1 hy
      rcases List.mem_cons.1 this with rfl | hy'
      · exact le_of_lt hxe
      · exact h.1 y hy'

theorem sortDesc_sorted (l : List Index) : SortedDesc (sortDesc l) := by
  induction l with
  | nil => simp [sortDesc, SortedDesc]
  | cons x xs ih => exact insertDesc_sorted x (sortDesc xs) ih

/-! ## Counting positions in a sorted list -/

theorem rank_count_ge (s : List Index) (hs : SortedDesc s) (i : Nat) (hi : i < s.length)
    (v : Nat) (hv : v ≤ s[i].index) :
    i + 1 ≤ s.countP fun e => decide (v ≤ e.index) := by
  have hlen : (s.take (i + 1)).length = i + 1 := by
    simp only [List.length_take]
    omega
  have hall : ∀ e ∈ s.take (i + 1), (decide (v ≤ e.index)) = true := by
    intro e he
    obtain ⟨j, hj, rfl⟩ := List.getElem_of_mem he
    have hj1 : j < i + 1 := by rw [hlen] at hj; exact hj
    have hj2 : j < s.length := by omega
    rw [List.getElem_take s]
    rcases Nat.lt_or_ge j i with hji | hji
    · have := (List.pairwise_iff_getElem.1 hs) j i hj2 hi hji
      simp only [decide_eq_true_eq]
      omega
    · have : j = i := by omega
      subst this
      simpa using hv
  calc i + 1 = (s.take (i + 1)).countP (fun e => decide (v ≤ e.index)) := by
        rw [List.countP_eq_length.2 hall, hlen]
    _ ≤ s.countP (fun e => decide (v ≤ e.index)) :=
        (List.take_sublist (i + 1) s).countP_le _

theorem rank_count_gt (s : List Index) (hs : SortedDesc s) (i : Nat) (hi : i < s.length)
    (p : Nat) (hp : s[i].index < p) :
    (s.countP fun e => decide (p ≤ e.index)) ≤ i := by
  have hsplit : s.countP (fun e => decide (p ≤ e.index)) =
      (s.take i).countP (fun e => decide (p ≤ e.index)) +
      (s.drop i).countP (fun e => decide (p ≤ e.index)) := by
    conv_lhs => rw [← List.take_append_drop i s]
    exact List.countP_append _ _ _
  have hdrop : (s.drop i).countP (fun e => decide (p ≤ e.index)) = 0 := by
    rw [List.countP_eq_zero]
    intro e he
    obtain ⟨j, hj, rfl⟩ := List.getElem_of_mem he
    rw [List.getElem_drop s]
    have hij : i + j < s.length := by
      have := hj
      simp only [List.length_drop] at this
      omega
    simp only [decide_eq_true_eq, not_le]
    rcases Nat.eq_zero_or_pos j with rfl | hj0
    · simpa using hp
    · have := (List.pairwise_iff_getElem.1 hs) i (i + j) hi hij (by omega)
      omega
  have htake : (s.take i).countP (fun e => decide (p ≤ e.index)) ≤ i :=
    le_trans (List.countP_le_length _) (by simp)
  omega

/-! ## The quorum rank -/

/-- The plain majority commit position of a list of entries. -/
def quorumIdx (entries : List Index) : Index :=
  (sortDesc entries).getD (majority entries.length - 1) ⟨0, 0⟩

theorem majority_pred_lt {n : Nat} (h : 0 < n) : majority n - 1 < n := by
  simp only [majority]
  omega

theorem quorumIdx_getElem (entries : List Index) (h : entries ≠ []) :
    quorumIdx entries =
      (sortDesc entries).get ⟨majority entries.length - 1, by
        rw [sortDesc_length]
        exact majority_pred_lt (List.length_pos.2 h)⟩ := by
  have hlt : majority entries.length - 1 < (sortDesc entries).length := by
    rw [sortDesc_length]
    exact majority_pred_lt (List.length_pos.2 h)
  simp [quorumIdx, List.getD_eq_getElem?_getD, List.getElem?_eq_getElem hlt]

theorem countP_sortDesc (l : List Index) (p : Index → Bool) :
    (sortDesc l).countP p = l.countP p :=
  (sortDesc_perm l).countP_eq p

theorem quorumIdx_count_ge (entries : List Index) (h : entries ≠ []) (v : Nat)
    (hv : v ≤ (quorumIdx entries).index) :
    majority entries.length ≤ entries.countP fun e => decide (v ≤ e.index) := by
  have hlt : majority entries.length - 1 < (sortDesc entries).length := by
    rw [sortDesc_length]
    exact majority_pred_lt (List.length_pos.2 h)
  rw [← countP_sortDesc]
  have := rank_count_ge (sortDesc entries) (sortDesc_sorted entries)
    (majority entries.length - 1) hlt v (by rw [quorumIdx_getElem entries h] at hv; exact hv)
  have hpos : 0 < majority entries.length := by simp [majority]
  omega

theorem quorumIdx_count_max (entries : List Index) (h : entries ≠ []) (p : Nat)
    (hp : majority entries.length ≤ entries.countP fun e => decide (p ≤ e.index)) :
    p ≤ (quorumIdx entries).index := by
  by_contra hlt
  push_neg at hlt
  have hl : majority entries.length - 1 < (sortDesc entries).length := by
    rw [sortDesc_length]
    exact majority_pred_lt (List.length_pos.2 h)
  have := rank_count_gt (sortDesc entries) (sortDesc_sorted entries)
    (majority entries.length - 1) hl p (by rw [quorumIdx_getElem entries h] at hlt; exact hlt)
  rw [countP_sortDesc] at this
  have hpos : 0 < majority entries.length := by simp [majority]
  omega

/-! ## Minimum of the acknowledged positions -/

theorem foldl_min_le_init (xs : List Nat) (a : Nat) : xs.foldl min a ≤ a := by
  induction xs generalizing a with
  | nil => simp
  | cons x xs ih => exact le_trans (ih (min a x)) (min_le_left a x)

theorem foldl_min_le (xs : List Nat) : ∀ (a x : Nat), x ∈ xs → xs.foldl min a ≤ x := by
  induction xs with
  | nil =>
    intro a x hx
    simp at hx
  | cons y ys ih =>
    intro a x hx
    rcases List.mem_cons.1 hx with h | h
    · subst h
      exact le_trans (foldl_min_le_init ys (min a x)) (min_le_right a x)
    · exact ih (min a y) x h

theorem foldl_min_mem (xs : List Nat) : ∀ a : Nat, xs.foldl min a ∈ a :: xs := by
  induction xs with
  | nil =>
    intro a
    simp
  | cons x xs ih =>
    intro a
    rcases List.mem_cons.1 (ih (min a x)) with hm | hm
    · rcases Nat.le_total a x with hax | hax
      · rw [List.foldl_cons, hm, min_eq_left hax]
        exact List.mem_cons_self a _
      · rw [List.foldl_cons, hm, min_eq_right hax]
        exact List.mem_cons_of_mem a (List.mem_cons_self x xs)
    · rw [List.foldl_cons]
      exact List.mem_cons_of_mem a (List.mem_cons_of_mem x hm)

theorem minPos_mem (xs : List Nat) (h : xs ≠ []) : minPos xs ∈ xs := by
  match xs with
  | x :: rest => exact foldl_min_mem rest x

theorem minPos_le (xs : List Nat) (x : Nat) (hx : x ∈ xs) : minPos xs ≤ x := by
  match xs with
  | y :: rest =>
    rcases List.mem_cons.1 hx with h | h
    · subst h
      exact foldl_min_le_init rest x
    · exact foldl_min_le rest y x h

theorem sorted_getLast_le (s : List Index) (hs : SortedDesc s) (h : s ≠ [])
    (x : Index) (hx : x ∈ s) : (s.getLast h).index ≤ x.index := by
  obtain ⟨j, hj, rfl⟩ := List.getElem_of_mem hx
  rw [List.getLast_eq_getElem]
  rcases Nat.lt_or_ge j (s.length - 1) with hj' | hj'
  · exact (List.pairwise_iff_getElem.1 hs) j (s.length - 1) hj (by omega) hj'
  · have : j = s.length - 1 := by omega
    subst this
    exact le_refl _

theorem sortDesc_getLast_minPos (entries : List Index) (h : entries ≠ []) :
    ((sortDesc entries).getLastD ⟨0, 0⟩).index = minPos (entries.map (·.index)) := by
  have hs : sortDesc entries ≠ [] := by
    intro hc
    have := sortDesc_length entries
    rw [hc] at this
    exact h (List.length_eq_zero.1 this.symm)
  rw [List.getLastD_eq_getLast? , List.getLast?_eq_getLast _ hs]
  simp only [Option.getD_some]
  have hmem : ((sortDesc entries).getLast hs).index ∈ entries.map (·.index) :=
    List.mem_map.2 ⟨_, mem_sortDesc.1 (List.getLast_mem hs), rfl⟩
  have hne : entries.map (·.index) ≠ [] := by
    simp [List.map_eq_nil_iff]
    intro hc
    exact h hc
  refine le_antisymm ?_ (minPos_le _ _ hmem)
  have hmm := minPos_mem (entries.map (·.index)) hne
  obtain ⟨e, he, heq⟩ := List.mem_map.1 hmm
  rw [← heq]
  exact sorted_getLast_le _ (sortDesc_sorted entries) hs e (mem_sortDesc.2 he)

/-! ## The group-commit scan -/

/-- The scan's group-checking state after traversing a conflict-free block. -/
def checkedAfter (checked : Nat) : List Index → Nat
  | [] => checked
  | m :: rest =>
    if m.group_id = 0 then checkedAfter checked rest
    else if checked = 0 then checkedAfter m.group_id rest
    else checkedAfter checked rest

/-- The Rust loop (with its `single_group` bookkeeping and fallbacks) equals
the conflict scan followed by the zero-group test. -/
theorem groupCommitScan_eq_scan (qci lastIdx : Nat) (c : Nat) (single : Bool)
    (l : List Index) :
    groupCommitScan qci lastIdx c single l =
      match specConflictScan c l with
      | some m => (min m.index qci, true)
      | none =>
        if single && l.all (fun e => e.group_id != 0) then (qci, false)
        else (lastIdx, false) := by
  induction l generalizing c single with
  | nil => simp [groupCommitScan, specConflictScan]
  | cons m rest ih =>
    by_cases h0 : m.group_id = 0
    · simp only [groupCommitScan, specConflictScan, if_pos h0, ih]
      cases hscan : specConflictScan c rest <;> simp [hscan, List.all_cons, h0]
    · by_cases hc0 : c = 0
      · simp only [groupCommitScan, specConflictScan, if_neg h0, if_pos hc0, ih]
        cases hscan : specConflictScan m.group_id rest <;>
          simp [hscan, List.all_cons, h0]
      · by_cases hce : c = m.group_id
        · simp only [groupCommitScan, specConflictScan, if_neg h0, if_neg hc0,
            if_pos hce, ih]
          cases hscan : specConflictScan c rest <;>
            simp [hscan, List.all_cons, h0]
        · simp only [groupCommitScan, specConflictScan, if_neg h0, if_neg hc0,
            if_neg hce]

theorem specConflictScan_append (c : Nat) (P T : List Index) :
    specConflictScan c (P ++ T) =
      match specConflictScan c P with
      | some m => some m
      | none => specConflictScan (checkedAfter c P) T := by
  induction P generalizing c with
  | nil => simp [specConflictScan, checkedAfter]
  | cons m rest ih =>
    by_cases h0 : m.group_id = 0
    · simp only [List.cons_append, specConflictScan, checkedAfter, if_pos h0]
      exact ih c
    · by_cases hc0 : c = 0
      · simp only [List.cons_append, specConflictScan, checkedAfter, if_neg h0,
          if_pos hc0]
        exact ih m.group_id
      · by_cases hce : c = m.group_id
        · simp only [List.cons_append, specConflictScan, checkedAfter, if_neg h0,
            if_neg hc0, if_pos hce]
          exact ih c
        · simp only [List.cons_append, specConflictScan, checkedAfter, if_neg h0,
            if_neg hc0, if_neg hce]

theorem specConflictScan_mem {c : Nat} {l : List Index} {m : Index}
    (h : specConflictScan c l = some m) : m ∈ l := by
  induction l generalizing c with
  | nil => simp [specConflictScan] at h
  | cons x rest ih =>
    simp only [specConflictScan] at h
    by_cases h0 : x.group_id = 0
    · rw [if_pos h0] at h
      exact List.mem_cons_of_mem x (ih h)
    · rw [if_neg h0] at h
      by_cases hc0 : c = 0
      · rw [if_pos hc0] at h
        exact List.mem_cons_of_mem x (ih h)
      · rw [if_neg hc0] at h
        by_cases hce : c = x.group_id
        · rw [if_pos hce] at h
          exact List.mem_cons_of_mem x (ih h)
        · rw [if_neg hce] at h
          simp at h
          simp [h]

theorem specConflictScan_of_all_eq (c : Nat) (l : List Index)
    (h : ∀ x ∈ l, x.group_id = c) : specConflictScan c l = none := by
  induction l with
  | nil => rfl
  | cons m rest ih =>
    have hm : m.group_id = c := h m (List.mem_cons_self m rest)
    simp only [specConflictScan]
    by_cases h0 : m.group_id = 0
    · rw [if_pos h0]
      exact ih fun x hx => h x (List.mem_cons_of_mem m hx)
    · rw [if_neg h0]
      have hc0 : ¬ c = 0 := by rw [← hm]; exact h0
      rw [if_neg hc0, if_pos hm.symm]
      exact ih fun x hx => h x (List.mem_cons_of_mem m hx)

theorem specConflictScan_none_all_eq {c : Nat} {l : List Index}
    (h : specConflictScan c l = none) (hc : c ≠ 0)
    (hnz : ∀ x ∈ l, x.group_id ≠ 0) : ∀ x ∈ l, x.group_id = c := by
  induction l with
  | nil => simp
  | cons m rest ih =>
    have hm0 : m.group_id ≠ 0 := hnz m (List.mem_cons_self m rest)
    simp only [specConflictScan, if_neg hm0, if_neg hc] at h
    by_cases hce : c = m.group_id
    · rw [if_pos hce] at h
      intro x hx
      rcases List.mem_cons.1 hx with rfl | hx'
      · exact hce.symm
      · exact ih h (fun y hy => hnz y (List.mem_cons_of_mem m hy)) x hx'
    · rw [if_neg hce] at h
      simp at h

/-! ## Stability of the sorted order under lowering one entry -/

theorem filter_insertDesc (v : Nat) (e : Index) (l : List Index) (hl : SortedDesc l) :
    (insertDesc e l).filter (fun x => decide (v ≤ x.index)) =
      if v ≤ e.index then insertDesc e (l.filter (fun x => decide (v ≤ x.index)))
      else l.filter (fun x => decide (v ≤ x.index)) := by
  induction l with
  | nil =>
    simp only [insertDesc, List.filter]
    by_cases hve : v ≤ e.index
    · simp [hve, insertDesc]
    · simp [hve]
  | cons x xs ih =>
    rw [SortedDesc, List.pairwise_cons] at hl
    simp only [insertDesc]
    by_cases hxe : x.index ≤ e.index
    · rw [if_pos hxe]
      by_cases hve : v ≤ e.index
      · rw [if_pos hve]
        by_cases hvx : v ≤ x.index
        · simp only [List.filter_cons, decide_eq_true_eq, if_pos hve, if_pos hvx, insertDesc,
            if_pos hxe]
        · have hnil : xs.filter (fun x => decide (v ≤ x.index)) = [] := by
            rw [List.filter_eq_nil_iff]
            intro y hy
            have := hl.1 y hy
            simp only [decide_eq_true_eq]
            omega
          simp [List.filter_cons, hve, hvx, hnil, insertDesc]
      · have hvx : ¬ v ≤ x.index := by omega
        simp [List.filter_cons, hve, hvx]
    · rw [if_neg hxe]
      by_cases hve : v ≤ e.index
      · rw [if_pos hve]
        have hvx : v ≤ x.index := by omega
        simp only [List.filter_cons, decide_eq_true_eq, if_pos hvx]
        rw [ih hl.2, if_pos hve]
        simp [insertDesc, hxe]
      · rw [if_neg hve]
        simp only [List.filter_cons]
        rw [ih hl.2, if_neg hve]

theorem sortDesc_filter (v : Nat) (l : List Index) :
    (sortDesc l).filter (fun x => decide (v ≤ x.index)) =
      sortDesc (l.filter (fun x => decide (v ≤ x.index))) := by
  induction l with
  | nil => simp [sortDesc]
  | cons x xs ih =>
    simp only [sortDesc, List.filter_cons]
    rw [filter_insertDesc v x (sortDesc xs) (sortDesc_sorted xs), ih]
    by_cases hvx : v ≤ x.index
    · simp [hvx, sortDesc]
    · simp [hvx]

theorem sorted_split (s : List Index) (hs : SortedDesc s) (v : Nat) :
    s = s.filter (fun x => decide (v ≤ x.index)) ++
        s.filter (fun x => decide (x.index < v)) := by
  induction s with
  | nil => simp
  | cons x xs ih =>
    rw [SortedDesc, List.pairwise_cons] at hs
    by_cases hvx : v ≤ x.index
    · have hxlt : ¬ x.index < v := by omega
      simp only [List.filter_cons, decide_eq_true_eq, if_pos hvx, if_neg hxlt,
        List.cons_append]
      exact congrArg (x :: ·) (ih hs.2)
    · have hxlt : x.index < v := by omega
      have hnil : xs.filter (fun x => decide (v ≤ x.index)) = [] := by
        rw [List.filter_eq_nil_iff]
        intro y hy
        have := hs.1 y hy
        simp only [decide_eq_true_eq]
        omega
      have hself : xs.filter (fun x => decide (x.index < v)) = xs := by
        rw [List.filter_eq_self]
        intro y hy
        have := hs.1 y hy
        simp only [decide_eq_true_eq]
        omega
      simp [List.filter_cons, hvx, hxlt, hnil, hself]

theorem filter_ge_replace (pre post : List Index) (e e' : Index) (v : Nat)
    (he : e.index < v) (he' : e'.index < v) :
    (pre ++ e :: post).filter (fun x => decide (v ≤ x.index)) =
      (pre ++ e' :: post).filter (fun x => decide (v ≤ x.index)) := by
  have h1 : (decide (v ≤ e.index)) = false := by
    simp only [decide_eq_false_iff_not]
    omega
  have h2 : (decide (v ≤ e'.index)) = false := by
    simp only [decide_eq_false_iff_not]
    omega
  simp [List.filter_append, List.filter_cons, h1, h2]

theorem quorumIdx_replace (pre post : List Index) (e e' : Index) (v : Nat)
    (he : e.index < v) (he' : e'.index < v)
    (hvle : v ≤ (quorumIdx (pre ++ e :: post)).index) :
    quorumIdx (pre ++ e' :: post) = quorumIdx (pre ++ e :: post) := by
  have hne : pre ++ e :: post ≠ [] := by simp
  have hne' : pre ++ e' :: post ≠ [] := by simp
  have hlen : (pre ++ e' :: post).length = (pre ++ e :: post).length := by simp
  have hcount : majority (pre ++ e :: post).length ≤
      (pre ++ e :: post).countP (fun x => decide (v ≤ x.index)) :=
    quorumIdx_count_ge _ hne v hvle
  have hPlen : ((sortDesc (pre ++ e :: post)).filter
      (fun x => decide (v ≤ x.index))).length =
      (pre ++ e :: post).countP (fun x => decide (v ≤ x.index)) := by
    rw [← List.countP_eq_length_filter, countP_sortDesc]
  have hPeq : (sortDesc (pre ++ e' :: post)).filter (fun x => decide (v ≤ x.index)) =
      (sortDesc (pre ++ e :: post)).filter (fun x => decide (v ≤ x.index)) := by
    rw [sortDesc_filter, sortDesc_filter, filter_ge_replace pre post e e' v he he']
  have hq : majority (pre ++ e :: post).length - 1 <
      ((sortDesc (pre ++ e :: post)).filter (fun x => decide (v ≤ x.index))).length := by
    rw [hPlen]
    have : 0 < majority (pre ++ e :: post).length := by simp [majority]
    omega
  have hsplit := sorted_split (sortDesc (pre ++ e :: post))
    (sortDesc_sorted _) v
  have hsplit' := sorted_split (sortDesc (pre ++ e' :: post))
    (sortDesc_sorted _) v
  rw [quorumIdx, quorumIdx, hlen]
  conv_lhs => rw [hsplit']
  conv_rhs => rw [hsplit]
  rw [hPeq]
  rw [List.getD_append _ _ _ _ hq, List.getD_append _ _ _ _ hq]

theorem committedIndexEntries_false (entries : List Index) :
    committedIndexEntries false entries = ((quorumIdx entries).index, false) := by
  simp [committedIndexEntries, quorumIdx, sortDesc_length]

theorem committedIndexEntries_true (entries : List Index) :
    committedIndexEntries true entries =
      match specConflictScan (quorumIdx entries).group_id (sortDesc entries) with
      | some m => (min m.index (quorumIdx entries).index, true)
      | none =>
        if (sortDesc entries).all (fun e => e.group_id != 0) then
          ((quorumIdx entries).index, false)
        else (((sortDesc entries).getLastD ⟨0, 0⟩).index, false) := by
  simp only [committedIndexEntries, quorumIdx, sortDesc_length, Bool.not_true,
    Bool.false_eq_true, if_false, groupCommitScan_eq_scan, Bool.true_and]

theorem all_nonzero_iff (s : List Index) :
    (s.all fun e => e.group_id != 0) = true ↔ ∀ x ∈ s, x.group_id ≠ 0 := by
  rw [List.all_eq_true]
  constructor
  · intro h x hx
    have := h x hx
    simpa using this
  · intro h x hx
    simpa using h x hx

theorem committedEntries_replace (flag : Bool) (pre post : List Index) (e e' : Index)
    (v : Nat) (hg : e'.group_id = e.group_id) (he : e.index < v) (he' : e'.index < v)
    (hv : (committedIndexEntries flag (pre ++ e :: post)).1 = v) :
    (committedIndexEntries flag (pre ++ e' :: post)).1 = v := by
  have hne : pre ++ e :: post ≠ [] := by simp
  have hne' : pre ++ e' :: post ≠ [] := by simp
  cases flag with
  | false =>
    rw [committedIndexEntries_false] at hv ⊢
    rw [quorumIdx_replace pre post e e' v he he' (le_of_eq hv.symm)]
    exact hv
  | true =>
    rw [committedIndexEntries_true] at hv ⊢
    cases hscan : specConflictScan (quorumIdx (pre ++ e :: post)).group_id
        (sortDesc (pre ++ e :: post)) with
    | some m =>
      rw [hscan] at hv
      simp only at hv
      have hvqi : v ≤ (quorumIdx (pre ++ e :: post)).index := by
        rw [← hv]
        exact min_le_right _ _
      have hvm : v ≤ m.index := by
        rw [← hv]
        exact min_le_left _ _
      have hqi' := quorumIdx_replace pre post e e' v he he' hvqi
      -- conflict found inside the shared prefix of entries with position at least v
      have hsplit := sorted_split (sortDesc (pre ++ e :: post)) (sortDesc_sorted _) v
      have hsplit' := sorted_split (sortDesc (pre ++ e' :: post)) (sortDesc_sorted _) v
      have hPeq : (sortDesc (pre ++ e' :: post)).filter (fun x => decide (v ≤ x.index)) =
          (sortDesc (pre ++ e :: post)).filter (fun x => decide (v ≤ x.index)) := by
        rw [sortDesc_filter, sortDesc_filter, filter_ge_replace pre post e e' v he he']
      rw [hsplit, specConflictScan_append] at hscan
      have hP : specConflictScan (quorumIdx (pre ++ e :: post)).group_id
          ((sortDesc (pre ++ e :: post)).filter (fun x => decide (v ≤ x.index))) = some m := by
        cases hcase : specConflictScan (quorumIdx (pre ++ e :: post)).group_id
            ((sortDesc (pre ++ e :: post)).filter (fun x => decide (v ≤ x.index))) with
        | some r =>
          rw [hcase] at hscan
          simp only at hscan
          exact hscan
        | none =>
          rw [hcase] at hscan
          simp only at hscan
          have hmem := specConflictScan_mem hscan
          have := (List.mem_filter.1 hmem).2
          simp only [decide_eq_true_eq] at this
          omega
      rw [hsplit', hqi', specConflictScan_append, hPeq, hP]
      exact hv
    | none =>
      rw [hscan] at hv
      by_cases hall : ((sortDesc (pre ++ e :: post)).all fun e => e.group_id != 0) = true
      · rw [hall] at hv
        simp only [if_true] at hv
        have hqi' := quorumIdx_replace pre post e e' v he he' (le_of_eq hv.symm)
        have hc0 : (quorumIdx (pre ++ e :: post)).group_id ≠ 0 := by
          have hq := quorumIdx_getElem _ hne
          have hmem : quorumIdx (pre ++ e :: post) ∈ sortDesc (pre ++ e :: post) := by
            rw [hq]
            exact List.getElem_mem _
          exact (all_nonzero_iff _).1 hall _ hmem
        have hgroups : ∀ x ∈ sortDesc (pre ++ e :: post),
            x.group_id = (quorumIdx (pre ++ e :: post)).group_id :=
          specConflictScan_none_all_eq hscan hc0 ((all_nonzero_iff _).1 hall)
        have hgroups' : ∀ x ∈ sortDesc (pre ++ e' :: post),
            x.group_id = (quorumIdx (pre ++ e :: post)).group_id := by
          intro x hx
          have hx' : x ∈ pre ++ e' :: post := mem_sortDesc.1 hx
          rcases List.mem_append.1 hx' with hxp | hxc
          · exact hgroups x (mem_sortDesc.2 (List.mem_append_left _ hxp))
          · rcases List.mem_cons.1 hxc with rfl | hxq
            · rw [hg]
              exact hgroups e (mem_sortDesc.2
                (List.mem_append_right _ (List.mem_cons_self e post)))
            · exact hgroups x (mem_sortDesc.2
                (List.mem_append_right _ (List.mem_cons_of_mem e hxq)))
        have hscan' : specConflictScan (quorumIdx (pre ++ e' :: post)).group_id
            (sortDesc (pre ++ e' :: post)) = none := by
          rw [hqi']
          exact specConflictScan_of_all_eq _ _ hgroups'
        have hall' : ((sortDesc (pre ++ e' :: post)).all fun e => e.group_id != 0) = true := by
          rw [all_nonzero_iff]
          intro x hx
          rw [hgroups' x hx]
          exact hc0
        rw [hscan', hall']
        simp only [if_true]
        rw [hqi']
        exact hv
      · rw [Bool.not_eq_true] at hall
        rw [hall] at hv
        simp only [Bool.false_eq_true, if_false] at hv
        rw [sortDesc_getLast_minPos _ hne] at hv
        have hmem : e.index ∈ (pre ++ e :: post).map (·.index) :=
          List.mem_map.2 ⟨e, List.mem_append_right _ (List.mem_cons_self e post), rfl⟩
        have := minPos_le _ _ hmem
        omega

/-! ## Positions-only view of the sort -/

/-- Stable insertion on bare positions. -/
def insertDescNat (e : Nat) : List Nat → List Nat
  | [] => [e]
  | x :: xs => if x ≤ e then e :: x :: xs else x :: insertDescNat e xs

/-- Stable descending sort of bare positions. -/
def sortDescNat : List Nat → List Nat
  | [] => []
  | x :: xs => insertDescNat x (sortDescNat xs)

theorem map_index_insertDesc (e : Index) (l : List Index) :
    (insertDesc e l).map (·.index) = insertDescNat e.index (l.map (·.index)) := by
  induction l with
  | nil => rfl
  | cons x xs ih =>
    simp only [insertDesc, insertDescNat, List.map_cons]
    by_cases hxe : x.index ≤ e.index
    · simp [hxe]
    · simp [hxe, ih]

theorem map_index_sortDesc (l : List Index) :
    (sortDesc l).map (·.index) = sortDescNat (l.map (·.index)) := by
  induction l with
  | nil => rfl
  | cons x xs ih =>
    rw [sortDesc, map_index_insertDesc, ih, List.map_cons, sortDescNat]

theorem getD_map_index (l : List Index) (i : Nat) :
    (l.map (·.index)).getD i 0 = (l.getD i ⟨0, 0⟩).index := by
  rcases Nat.lt_or_ge i l.length with hi | hi
  · have hi' : i < (l.map (·.index)).length := by simpa using hi
    rw [List.getD_eq_getElem?_getD, List.getD_eq_getElem?_getD,
      List.getElem?_eq_getElem hi, List.getElem?_eq_getElem hi']
    simp
  · have hi' : (l.map (·.index)).length ≤ i := by simpa using hi
    rw [List.getD_eq_getElem?_getD, List.getD_eq_getElem?_getD,
      List.getElem?_eq_none hi, List.getElem?_eq_none hi']
    rfl

/-! ## Helper facts shared by the claim theorems -/

theorem perm_all_eq {l₁ l₂ : List Index} (hp : l₁.Perm l₂) (P : Index → Bool) :
    l₁.all P = l₂.all P := by
  have hiff : l₁.all P = true ↔ l₂.all P = true := by
    rw [List.all_eq_true, List.all_eq_true]
    exact ⟨fun h x hx => h x (hp.mem_iff.2 hx), fun h x hx => h x (hp.mem_iff.1 hx)⟩
  cases h1 : l₁.all P <;> cases h2 : l₂.all P <;> simp_all

theorem mem_nodup_split {vs : List Nat} {w : Nat} (hnd : vs.Nodup) (hw : w ∈ vs) :
    ∃ a b, vs = a ++ w :: b ∧ w ∉ a ∧ w ∉ b := by
  obtain ⟨a, b, rfl⟩ := List.append_of_mem hw
  rw [List.nodup_append] at hnd
  refine ⟨a, b, rfl, ?_, (List.nodup_cons.1 hnd.2.1).1⟩
  intro hwa
  exact hnd.2.2 hwa (List.mem_cons_self w b)

/-! ## Claim theorems: quorum arithmetic -/

/-- Acknowledgement map of the spec §8 group-commit example: voter 1 at
position 77 group 1, voter 2 at position 88 group 1, voter 3 at position 99
group 2. -/
def ackC1 : Nat → Option Index := fun x =>
  if x = 1 then some ⟨77, 1⟩
  else if x = 2 then some ⟨88, 1⟩
  else if x = 3 then some ⟨99, 2⟩
  else none

/-- Claim C1 counterexample: on voters `{1,2,3}` with positions `[77,88,99]`
and groups `[1,1,2]`, `committed_index(use_group_commit = true)` does not
return `(77, true)`: the quorum entry is 88 (group 1) and the scan hits the
conflicting entry 99 (group 2) first, so the result is `min 99 88 = 88`. -/
theorem group_commit_example_cex :
    committedIndex [1, 2, 3] true ackC1 ≠ (77, true) := by decide

/-- Claim C1 as amended: on voters `{1,2,3}` with positions `[77,88,99]` and
groups `[1,1,2]`, `committed_index(use_group_commit = true)` returns
position 88 with the group-commit flag true (this is also row 3 of the
repository test `test_joint_commit_multi_group`). -/
theorem group_commit_example_amended :
    committedIndex [1, 2, 3] true ackC1 = (88, true) := by decide

/-- Claim C2: on every non-empty configuration, `committed_index` with
`use_group_commit = true` follows the spec description `specGroupCommit`:
scanning the entries in descending position order from the majority commit
index and its group id, a nonzero group id differing from the accumulated
checked id yields `(min(that position, majority commit index), true)`; no
conflict and no group-0 entry yields `(majority commit index, false)`; no
conflict but a group-0 entry yields the minimum acknowledged position with
flag false. -/
theorem committedIndex_group_commit_spec (vs : List Nat) (f : Nat → Option Index)
    (h : vs ≠ []) : committedIndex vs true f = specGroupCommit vs f := by
  have hne : ackedEntries vs f ≠ [] := by simpa [ackedEntries] using h
  have hlen : (ackedEntries vs f).length = vs.length := by simp [ackedEntries]
  rw [committedIndex, if_neg h, committedIndexEntries_true]
  simp only [specGroupCommit]
  have hq : (sortDesc (ackedEntries vs f)).getD (majority vs.length - 1) ⟨0, 0⟩ =
      quorumIdx (ackedEntries vs f) := by
    rw [quorumIdx, hlen]
  rw [hq]
  cases hscan : specConflictScan (quorumIdx (ackedEntries vs f)).group_id
      (sortDesc (ackedEntries vs f)) with
  | some m => simp only [hscan]
  | none =>
    simp only [hscan]
    rw [perm_all_eq (sortDesc_perm (ackedEntries vs f))]
    by_cases hcase : ((ackedEntries vs f).all fun e => e.group_id != 0) = true
    · rw [hcase]
      simp
    · rw [Bool.not_eq_true] at hcase
      rw [hcase]
      simp only [Bool.false_eq_true, if_false]
      rw [sortDesc_getLast_minPos _ hne]

def ackC2 : Nat → Option Index := fun x =>
  if x = 1 then some ⟨77, 1⟩
  else if x = 2 then some ⟨88, 2⟩
  else if x = 3 then some ⟨99, 0⟩
  else none

theorem committedIndex_group_commit_spec_witness :
    ([1, 2, 3] : List Nat) ≠ [] ∧
    committedIndex [1, 2, 3] true ackC2 = specGroupCommit [1, 2, 3] ackC2 :=
  ⟨by decide, committedIndex_group_commit_spec [1, 2, 3] ackC2 (by decide)⟩

/-- Claim C3: with group commit disabled, `committed_index` on a non-empty
configuration returns `(v, false)` where `v` is the entry at rank
`quorum - 1` of the acknowledged positions sorted descending (position 0 for
an unknown voter), and `v` is equivalently the largest position acknowledged
by at least a majority of the voters. -/
theorem committedIndex_plain_rank (vs : List Nat) (f : Nat → Option Index)
    (h : vs ≠ []) :
    committedIndex vs false f =
      ((sortDescNat (vs.map fun x => ((f x).getD ⟨0, 0⟩).index)).getD
        (majority vs.length - 1) 0, false) ∧
    majority vs.length ≤ vs.countP
      (fun x => decide ((committedIndex vs false f).1 ≤ ((f x).getD ⟨0, 0⟩).index)) ∧
    ∀ p : Nat, majority vs.length ≤ vs.countP
      (fun x => decide (p ≤ ((f x).getD ⟨0, 0⟩).index)) →
      p ≤ (committedIndex vs false f).1 := by
  have hne : ackedEntries vs f ≠ [] := by simpa [ackedEntries] using h
  have hlen : (ackedEntries vs f).length = vs.length := by simp [ackedEntries]
  have hmap : (ackedEntries vs f).map (·.index) =
      vs.map fun x => ((f x).getD ⟨0, 0⟩).index := by
    simp [ackedEntries, List.map_map, Function.comp]
  have hV : (committedIndex vs false f).1 = (quorumIdx (ackedEntries vs f)).index := by
    rw [committedIndex, if_neg h, committedIndexEntries_false]
  refine ⟨?_, ?_, ?_⟩
  · rw [committedIndex, if_neg h, committedIndexEntries_false]
    have : (quorumIdx (ackedEntries vs f)).index =
        (sortDescNat (vs.map fun x => ((f x).getD ⟨0, 0⟩).index)).getD
          (majority vs.length - 1) 0 := by
      rw [quorumIdx, hlen, ← getD_map_index, map_index_sortDesc, hmap]
    rw [this]
  · have hcount := quorumIdx_count_ge (ackedEntries vs f) hne
      (quorumIdx (ackedEntries vs f)).index le_rfl
    rw [hlen] at hcount
    rw [ackedEntries, List.countP_map] at hcount
    rw [hV]
    exact hcount
  · intro p hp
    rw [hV]
    apply quorumIdx_count_max (ackedEntries vs f) hne p
    rw [hlen, ackedEntries, List.countP_map]
    exact hp

def ackC3 : Nat → Option Index := fun x =>
  if x = 1 then some ⟨12, 0⟩
  else if x = 2 then some ⟨5, 0⟩
  else if x = 3 then some ⟨6, 0⟩
  else none

theorem committedIndex_plain_rank_witness :
    committedIndex [1, 2, 3] false ackC3 =
      ((sortDescNat ([1, 2, 3].map fun x => ((ackC3 x).getD ⟨0, 0⟩).index)).getD
        (majority ([1, 2, 3] : List Nat).length - 1) 0, false) ∧
    majority ([1, 2, 3] : List Nat).length ≤ ([1, 2, 3] : List Nat).countP
      (fun x => decide ((committedIndex [1, 2, 3] false ackC3).1 ≤
        ((ackC3 x).getD ⟨0, 0⟩).index)) ∧
    ∀ p : Nat, majority ([1, 2, 3] : List Nat).length ≤ ([1, 2, 3] : List Nat).countP
      (fun x => decide (p ≤ ((ackC3 x).getD ⟨0, 0⟩).index)) →
      p ≤ (committedIndex [1, 2, 3] false ackC3).1 :=
  committedIndex_plain_rank [1, 2, 3] ackC3 (by decide)

/-- Claim C4: on a non-empty configuration, `vote_result` returns `Won` iff
the yes-count reaches the quorum, otherwise `Pending` iff yes plus missing
reaches the quorum, otherwise `Lost`. -/
theorem voteResult_characterization (vs : List Nat) (check : Nat → Option Bool)
    (h : vs ≠ []) :
    (voteResult vs check = .Won ↔
      majority vs.length ≤ vs.countP (fun v => check v == some true)) ∧
    (voteResult vs check = .Pending ↔
      (vs.countP (fun v => check v == some true) < majority vs.length ∧
        majority vs.length ≤ vs.countP (fun v => check v == some true) +
          vs.countP (fun v => check v == none))) ∧
    (voteResult vs check = .Lost ↔
      vs.countP (fun v => check v == some true) +
        vs.countP (fun v => check v == none) < majority vs.length) := by
  simp only [voteResult, if_neg h]
  by_cases h1 : vs.countP (fun v => check v == some true) ≥ majority vs.length
  · rw [if_pos h1]
    refine ⟨by simp [h1], ?_, ?_⟩
    · constructor
      · intro hc
        simp at hc
      · intro hc
        omega
    · constructor
      · intro hc
        simp at hc
      · intro hc
        omega
  · rw [if_neg h1]
    by_cases h2 : vs.countP (fun v => check v == some true) +
        vs.countP (fun v => check v == none) ≥ majority vs.length
    · rw [if_pos h2]
      refine ⟨?_, by simp; omega, ?_⟩
      · constructor
        · intro hc
          simp at hc
        · intro hc
          omega
      · constructor
        · intro hc
          simp at hc
        · intro hc
          omega
    · rw [if_neg h2]
      refine ⟨?_, ?_, by simp; omega⟩
      · constructor
        · intro hc
          simp at hc
        · intro hc
          omega
      · constructor
        · intro hc
          simp at hc
        · intro hc
          omega

def voteC4 : Nat → Option Bool := fun v =>
  if v = 2 then some true else if v = 4 then some true else if v = 7 then some false else none

theorem voteResult_characterization_witness :
    (voteResult [2, 4, 7] voteC4 = .Won ↔
      majority ([2, 4, 7] : List Nat).length ≤
        ([2, 4, 7] : List Nat).countP (fun v => voteC4 v == some true)) ∧
    (voteResult [2, 4, 7] voteC4 = .Pending ↔
      (([2, 4, 7] : List Nat).countP (fun v => voteC4 v == some true) <
          majority ([2, 4, 7] : List Nat).length ∧
        majority ([2, 4, 7] : List Nat).length ≤
          ([2, 4, 7] : List Nat).countP (fun v => voteC4 v == some true) +
            ([2, 4, 7] : List Nat).countP (fun v => voteC4 v == none))) ∧
    (voteResult [2, 4, 7] voteC4 = .Lost ↔
      ([2, 4, 7] : List Nat).countP (fun v => voteC4 v == some true) +
        ([2, 4, 7] : List Nat).countP (fun v => voteC4 v == none) <
          majority ([2, 4, 7] : List Nat).length) :=
  voteResult_characterization [2, 4, 7] voteC4 (by decide)

/-- Claim C5: the joint configuration composes the halves pointwise: the
committed index is the minimum of the halves with the conjunction of their
group-commit flags, the vote is won exactly when both halves win, lost
exactly when some half loses and pending otherwise, and both queries are
invariant under swapping the two halves. -/
theorem joint_composition (inc out : List Nat) (flag : Bool)
    (l : Nat → Option Index) (check : Nat → Option Bool) :
    jointCommittedIndex inc out flag l =
      (min (committedIndex inc flag l).1 (committedIndex out flag l).1,
        (committedIndex inc flag l).2 && (committedIndex out flag l).2) ∧
    jointCommittedIndex inc out flag l = jointCommittedIndex out inc flag l ∧
    (jointVoteResult inc out check = .Won ↔
      (voteResult inc check = .Won ∧ voteResult out check = .Won)) ∧
    (jointVoteResult inc out check = .Lost ↔
      (voteResult inc check = .Lost ∨ voteResult out check = .Lost)) ∧
    (jointVoteResult inc out check = .Pending ↔
      (¬(voteResult inc check = .Won ∧ voteResult out check = .Won) ∧
        ¬(voteResult inc check = .Lost ∨ voteResult out check = .Lost))) ∧
    jointVoteResult inc out check = jointVoteResult out inc check := by
  refine ⟨rfl, ?_, ?_, ?_, ?_, ?_⟩
  · simp [jointCommittedIndex, Nat.min_comm, Bool.and_comm]
  all_goals
    cases h1 : voteResult inc check <;> cases h2 : voteResult out check <;>
      simp [jointVoteResult, h1, h2]

/-- Claim C6: the empty majority configuration commits everything, reporting
`(u64::MAX, true)` for either group-commit mode, and wins every vote. -/
theorem empty_majority_config (flag : Bool) (l : Nat → Option Index)
    (check : Nat → Option Bool) :
    committedIndex [] flag l = (UMAX, true) ∧ voteResult [] check = .Won :=
  ⟨rfl, rfl⟩

/-- Claim C9: lowering the acknowledged position of one voter from strictly
between 0 and the committed index `v` to any value below `v` leaves the
committed index at `v` (for either group-commit mode; the voter set is
duplicate-free as a `MajorityConfig` is a set). -/
theorem committedIndex_lower_voter (vs : List Nat) (f : Nat → Option Index)
    (flag : Bool) (w : Nat) (p' v : Nat) (hnd : vs.Nodup) (hw : w ∈ vs)
    (h0 : 0 < ((f w).getD ⟨0, 0⟩).index) (hlt : ((f w).getD ⟨0, 0⟩).index < v)
    (hp' : p' < v) (hv : (committedIndex vs flag f).1 = v) :
    (committedIndex vs flag
      (fun x => if x = w then some ⟨p', ((f w).getD ⟨0, 0⟩).group_id⟩ else f x)).1 = v := by
  obtain ⟨a, b, rfl, hwa, hwb⟩ := mem_nodup_split hnd hw
  have hvs : a ++ w :: b ≠ [] := by simp
  rw [committedIndex, if_neg hvs] at hv ⊢
  have hdec : ackedEntries (a ++ w :: b) f =
      a.map (fun x => (f x).getD ⟨0, 0⟩) ++
        ((f w).getD ⟨0, 0⟩) :: b.map (fun x => (f x).getD ⟨0, 0⟩) := by
    simp [ackedEntries]
  have hmapa : a.map (fun x =>
        (if x = w then some ⟨p', ((f w).getD ⟨0, 0⟩).group_id⟩ else f x).getD ⟨0, 0⟩) =
      a.map (fun x => (f x).getD ⟨0, 0⟩) := by
    apply List.map_congr_left
    intro x hx
    have hxw : x ≠ w := fun hxw => hwa (hxw ▸ hx)
    simp [hxw]
  have hmapb : b.map (fun x =>
        (if x = w then some ⟨p', ((f w).getD ⟨0, 0⟩).group_id⟩ else f x).getD ⟨0, 0⟩) =
      b.map (fun x => (f x).getD ⟨0, 0⟩) := by
    apply List.map_congr_left
    intro x hx
    have hxw : x ≠ w := fun hxw => hwb (hxw ▸ hx)
    simp [hxw]
  have hhead : ((if w = w then some (⟨p', ((f w).getD ⟨0, 0⟩).group_id⟩ : Index)
      else f w).getD ⟨0, 0⟩) = ⟨p', ((f w).getD ⟨0, 0⟩).group_id⟩ := by
    simp
  have hdec' : ackedEntries (a ++ w :: b)
        (fun x => if x = w then some ⟨p', ((f w).getD ⟨0, 0⟩).group_id⟩ else f x) =
      a.map (fun x => (f x).getD ⟨0, 0⟩) ++
        (⟨p', ((f w).getD ⟨0, 0⟩).group_id⟩ : Index) ::
          b.map (fun x => (f x).getD ⟨0, 0⟩) := by
    simp only [ackedEntries, List.map_append, List.map_cons, hmapa, hmapb, hhead]
    simp
  rw [hdec] at hv
  rw [hdec']
  exact committedEntries_replace flag (a.map fun x => (f x).getD ⟨0, 0⟩)
    (b.map fun x => (f x).getD ⟨0, 0⟩) ((f w).getD ⟨0, 0⟩)
    ⟨p', ((f w).getD ⟨0, 0⟩).group_id⟩ v rfl hlt hp' hv

def ackC9 : Nat → Option Index := fun x =>
  if x = 1 then some ⟨5, 0⟩
  else if x = 2 then some ⟨5, 0⟩
  else if x = 3 then some ⟨3, 0⟩
  else none

theorem committedIndex_lower_voter_witness :
    (committedIndex [1, 2, 3] false
      (fun x => if x = 3 then some ⟨1, ((ackC9 3).getD ⟨0, 0⟩).group_id⟩
        else ackC9 x)).1 = 5 :=
  committedIndex_lower_voter [1, 2, 3] ackC9 false 3 1 5 (by decide) (by decide)
    (by decide) (by decide) (by decide) (by decide)

/-- Claim C10: with group commit disabled, the result of `committed_index`
depends only on the acknowledged positions: two acknowledgement maps giving
every voter the same position (regardless of group ids) give identical
results. -/
theorem committedIndex_group_blind (vs : List Nat) (f₁ f₂ : Nat → Option Index)
    (h : ∀ x ∈ vs, ((f₁ x).getD ⟨0, 0⟩).index = ((f₂ x).getD ⟨0, 0⟩).index) :
    committedIndex vs false f₁ = committedIndex vs false f₂ := by
  by_cases hvs : vs = []
  · subst hvs
    rfl
  · rw [committedIndex, committedIndex, if_neg hvs, if_neg hvs,
      committedIndexEntries_false, committedIndexEntries_false]
    have hmap : (ackedEntries vs f₁).map (·.index) =
        (ackedEntries vs f₂).map (·.index) := by
      simp only [ackedEntries, List.map_map]
      apply List.map_congr_left
      intro x hx
      simpa [Function.comp] using h x hx
    have hlen : (ackedEntries vs f₁).length = (ackedEntries vs f₂).length := by
      simp [ackedEntries]
    have hidx : (quorumIdx (ackedEntries vs f₁)).index =
        (quorumIdx (ackedEntries vs f₂)).index := by
      rw [quorumIdx, quorumIdx, ← getD_map_index, ← getD_map_index,
        map_index_sortDesc, map_index_sortDesc, hmap, hlen]
    rw [hidx]

def ackC10a : Nat → Option Index := fun x =>
  if x = 1 then some ⟨10, 1⟩ else if x = 2 then some ⟨20, 2⟩ else none

def ackC10b : Nat → Option Index := fun x =>
  if x = 1 then some ⟨10, 7⟩ else if x = 2 then some ⟨20, 0⟩ else none

theorem committedIndex_group_blind_witness :
    committedIndex [1, 2] false ackC10a = committedIndex [1, 2] false ackC10b :=
  committedIndex_group_blind [1, 2] ackC10a ackC10b (by decide)

/-! ## Changer lemmas -/

theorem initProgress_base (cfg : TrackerConfig) (prs : IncrChangeMap) (id : Nat)
    (isLearner : Bool) : (initProgress cfg prs id isLearner).2.base = prs.base := rfl

theorem makeVoter_base (cfg : TrackerConfig) (prs : IncrChangeMap) (id : Nat) :
    (makeVoter cfg prs id).2.base = prs.base := by
  rw [makeVoter]
  split
  · exact initProgress_base ..
  · rfl

theorem makeLearner_base (cfg : TrackerConfig) (prs : IncrChangeMap) (id : Nat) :
    (makeLearner cfg prs id).2.base = prs.base := by
  rw [makeLearner]
  split
  · exact initProgress_base ..
  · split
    · rfl
    · dsimp only
      split <;> rfl

theorem removeNode_base (cfg : TrackerConfig) (prs : IncrChangeMap) (id : Nat) :
    (removeNode cfg prs id).2.base = prs.base := by
  rw [removeNode]
  split
  · rfl
  · dsimp only
    split <;> rfl

theorem applyStage_base (start : TrackerConfig × IncrChangeMap)
    (ccs : List ConfChangeSingle) : (applyStage start ccs).2.base = start.2.base := by
  induction ccs generalizing start with
  | nil => rfl
  | cons cc rest ih =>
    have hstep : applyStage start (cc :: rest) =
        applyStage (if cc.node_id = 0 then start
          else match cc.change_type with
            | .AddNode => makeVoter start.1 start.2 cc.node_id
            | .AddLearnerNode => makeLearner start.1 start.2 cc.node_id
            | .RemoveNode => removeNode start.1 start.2 cc.node_id) rest := by
      rw [applyStage, applyStage, List.foldl_cons]
    rw [hstep, ih]
    by_cases h0 : cc.node_id = 0
    · rw [if_pos h0]
    · rw [if_neg h0]
      cases cc.change_type
      · exact makeVoter_base ..
      · exact makeLearner_base ..
      · exact removeNode_base ..

theorem applyCcs_ok {cfg : TrackerConfig} {prs : IncrChangeMap}
    {ccs : List ConfChangeSingle} {s : TrackerConfig × IncrChangeMap}
    (h : applyCcs cfg prs ccs = .ok s) : s = applyStage (cfg, prs) ccs := by
  rw [applyCcs] at h
  split at h
  · exact absurd h (by simp)
  · simpa using h.symm

theorem checkInvariants_ok {cfg : TrackerConfig} {prs : IncrChangeMap}
    (h : checkInvariants cfg prs = .ok ()) :
    (∀ id ∈ cfg.incoming ∪ cfg.outgoing, prs.contains id = true) ∧
    (∀ id ∈ cfg.learners, prs.contains id = true) ∧
    (∀ id ∈ cfg.learners, id ∉ cfg.outgoing) ∧
    (∀ id ∈ cfg.learners, id ∉ cfg.incoming) ∧
    (∀ id ∈ cfg.learners_next, prs.contains id = true) ∧
    (∀ id ∈ cfg.learners_next, id ∈ cfg.outgoing) ∧
    (cfg.outgoing = ∅ → cfg.learners_next = ∅) ∧
    (cfg.outgoing = ∅ → cfg.auto_leave = false) := by
  rw [checkInvariants] at h
  split_ifs at h with h1 h2 h3 h4 h5 h6 h7 h8
  all_goals try simp at h
  push_neg at h1 h2 h3 h4 h5 h6
  refine ⟨h1, h2, h3, h4, h5, h6, ?_, ?_⟩
  · intro ho
    by_contra hn
    exact h7 ⟨ho, hn⟩
  · intro ho
    cases hcase : cfg.auto_leave
    · rfl
    · exact absurd ⟨ho, hcase⟩ h8

theorem enterJoint_ok {cfg : TrackerConfig} {base : Finset Nat} {al : Bool}
    {ccs : List ConfChangeSingle} {c : TrackerConfig} {δ : MapChange}
    (h : enterJoint cfg base al ccs = .ok (c, δ)) :
    checkInvariants c ⟨δ, base⟩ = .ok () := by
  rw [enterJoint] at h
  split at h
  · exact absurd h (by simp)
  · split at h
    · exact absurd h (by simp)
    · rename_i u hu
      split at h
      · exact absurd h (by simp)
      · split at h
        · exact absurd h (by simp)
        · rename_i s hs
          split at h
          · exact absurd h (by simp)
          · rename_i u2 hu2
            simp only [Except.ok.injEq, Prod.mk.injEq] at h
            obtain ⟨hc, hδ⟩ := h
            have hbase : s.2.base = base := by
              rw [applyCcs_ok hs, applyStage_base]
            have heta : (⟨δ, base⟩ : IncrChangeMap) = s.2 := by
              rw [← hδ, ← hbase]
            rw [← hc, heta]
            cases u2
            exact hu2

theorem leaveJoint_ok {cfg : TrackerConfig} {base : Finset Nat}
    {c : TrackerConfig} {δ : MapChange}
    (h : leaveJoint cfg base = .ok (c, δ)) :
    checkInvariants c ⟨δ, base⟩ = .ok () := by
  rw [leaveJoint] at h
  split at h
  · exact absurd h (by simp)
  · split at h
    · exact absurd h (by simp)
    · split at h
      · exact absurd h (by simp)
      · rename_i u2 hu2
        simp only [Except.ok.injEq, Prod.mk.injEq] at h
        obtain ⟨hc, hδ⟩ := h
        have heta : (⟨δ, base⟩ : IncrChangeMap) = (leaveJointStage cfg base).2 := by
          rw [← hδ]
          rfl
        rw [← hc, heta]
        cases u2
        exact hu2

theorem simpleChange_ok {cfg : TrackerConfig} {base : Finset Nat}
    {ccs : List ConfChangeSingle} {c : TrackerConfig} {δ : MapChange}
    (h : simpleChange cfg base ccs = .ok (c, δ)) :
    checkInvariants c ⟨δ, base⟩ = .ok () := by
  rw [simpleChange] at h
  split at h
  · exact absurd h (by simp)
  · split at h
    · exact absurd h (by simp)
    · split at h
      · exact absurd h (by simp)
      · rename_i s hs
        split at h
        · exact absurd h (by simp)
        · split at h
          · exact absurd h (by simp)
          · rename_i u2 hu2
            simp only [Except.ok.injEq, Prod.mk.injEq] at h
            obtain ⟨hc, hδ⟩ := h
            have hbase : s.2.base = base := by
              rw [applyCcs_ok hs, applyStage_base]
            have heta : (⟨δ, base⟩ : IncrChangeMap) = s.2 := by
              rw [← hδ, ← hbase]
            rw [← hc, heta]
            cases u2
            exact hu2

/-! ## Claim theorems: configuration changes -/

/-- Claim C8: every configuration returned by a successful `enter_joint`,
`leave_joint` or `simple` call satisfies the tracked invariants: every voter
(incoming or outgoing) and every learner has a progress entry in the base
map as modified by the returned delta, learners are disjoint from both
voter halves, every staged learner is an outgoing voter, and a non-joint
result has no staged learners and a cleared auto-leave flag. -/
theorem changer_result_invariants (cfg : TrackerConfig) (base : Finset Nat)
    (al : Bool) (ccs : List ConfChangeSingle) (c : TrackerConfig) (δ : MapChange)
    (h : enterJoint cfg base al ccs = .ok (c, δ) ∨
      leaveJoint cfg base = .ok (c, δ) ∨ simpleChange cfg base ccs = .ok (c, δ)) :
    (∀ id ∈ c.incoming ∪ c.outgoing, IncrChangeMap.contains ⟨δ, base⟩ id = true) ∧
    (∀ id ∈ c.learners, IncrChangeMap.contains ⟨δ, base⟩ id = true) ∧
    (∀ id ∈ c.learners, id ∉ c.incoming ∧ id ∉ c.outgoing) ∧
    (∀ id ∈ c.learners_next, id ∈ c.outgoing) ∧
    (c.outgoing = ∅ → c.learners_next = ∅ ∧ c.auto_leave = false) := by
  have hchk : checkInvariants c ⟨δ, base⟩ = .ok () := by
    rcases h with h | h | h
    · exact enterJoint_ok h
    · exact leaveJoint_ok h
    · exact simpleChange_ok h
  obtain ⟨p1, p2, p3, p4, p5, p6, p7, p8⟩ := checkInvariants_ok hchk
  exact ⟨p1, p2, fun id hid => ⟨p4 id hid, p3 id hid⟩, p6, fun ho => ⟨p7 ho, p8 ho⟩⟩

def cfgC8 : TrackerConfig := ⟨∅, ∅, ∅, ∅, false⟩

def resC8 : TrackerConfig := ⟨{1}, ∅, ∅, ∅, false⟩

theorem changer_result_invariants_witness :
    (∀ id ∈ resC8.incoming ∪ resC8.outgoing,
      IncrChangeMap.contains ⟨[(1, MapChangeType.Add)], ∅⟩ id = true) ∧
    (∀ id ∈ resC8.learners,
      IncrChangeMap.contains ⟨[(1, MapChangeType.Add)], ∅⟩ id = true) ∧
    (∀ id ∈ resC8.learners, id ∉ resC8.incoming ∧ id ∉ resC8.outgoing) ∧
    (∀ id ∈ resC8.learners_next, id ∈ resC8.outgoing) ∧
    (resC8.outgoing = ∅ → resC8.learners_next = ∅ ∧ resC8.auto_leave = false) :=
  changer_result_invariants cfgC8 ∅ false [⟨1, .AddNode⟩] resC8
    [(1, .Add)] (Or.inr (Or.inr (by decide)))

/-- A joint configuration that passes the invariant checker with node 1 both
an incoming voter and a staged learner: `incoming = outgoing = {1}`,
`learners_next = {1}`. -/
def cfgC7 : TrackerConfig := ⟨{1}, {1}, ∅, {1}, false⟩

/-- Claim C7 counterexample: the configuration `cfgC7` is joint and passes
the invariant checker, yet `leave_joint` on it fails: promoting the staged
learner 1 makes it simultaneously a learner and an incoming voter in the
result, which the final invariant check rejects. Hence "leave_joint fails
when the configuration is not joint" does not exhaust its error conditions. -/
theorem changer_error_conditions_cex :
    checkInvariants cfgC7 ⟨[], {1}⟩ = .ok () ∧
    cfgC7.outgoing ≠ ∅ ∧
    (leaveJoint cfgC7 {1}).isOk = false := by decide

/-- Claim C7 as amended: assuming the current configuration passes the
invariant checker (every operation also fails when it does not, via
`check_and_copy`), the error conditions are exactly: `enter_joint` fails iff
already joint, or the incoming voter set is empty, or the edits leave it
empty, or the resulting configuration violates the checker; `leave_joint`
fails iff not joint or the resulting configuration violates the checker;
`simple` fails iff joint, or the edits leave the incoming voter set empty,
or they change it by more than one member, or the resulting configuration
violates the checker. All operations are pure: an error leaves the caller's
configuration untouched by construction. -/
theorem changer_error_conditions (cfg : TrackerConfig) (base : Finset Nat)
    (al : Bool) (ccs : List ConfChangeSingle)
    (h : checkInvariants cfg ⟨[], base⟩ = .ok ()) :
    ((enterJoint cfg base al ccs).isOk = false ↔
      (cfg.outgoing ≠ ∅ ∨ cfg.incoming = ∅ ∨
        (enterJointStage cfg base al ccs).1.incoming = ∅ ∨
        checkInvariants (enterJointStage cfg base al ccs).1
          (enterJointStage cfg base al ccs).2 ≠ .ok ())) ∧
    ((leaveJoint cfg base).isOk = false ↔
      (cfg.outgoing = ∅ ∨
        checkInvariants (leaveJointStage cfg base).1
          (leaveJointStage cfg base).2 ≠ .ok ())) ∧
    ((simpleChange cfg base ccs).isOk = false ↔
      (cfg.outgoing ≠ ∅ ∨
        (applyStage (cfg, ⟨[], base⟩) ccs).1.incoming = ∅ ∨
        1 < (((applyStage (cfg, ⟨[], base⟩) ccs).1.incoming \ cfg.incoming) ∪
          (cfg.incoming \ (applyStage (cfg, ⟨[], base⟩) ccs).1.incoming)).card ∨
        checkInvariants (applyStage (cfg, ⟨[], base⟩) ccs).1
          (applyStage (cfg, ⟨[], base⟩) ccs).2 ≠ .ok ())) := by
  refine ⟨?_, ?_, ?_⟩
  · by_cases h1 : cfg.outgoing = ∅
    · have hcond : ¬ cfg.outgoing ≠ ∅ := fun hc => hc h1
      by_cases h2 : cfg.incoming = ∅
      · simp only [enterJoint, h, if_neg hcond, if_pos h2]
        exact iff_of_true rfl (Or.inr (Or.inl h2))
      · simp only [enterJoint, h, if_neg hcond, if_neg h2, applyCcs]
        by_cases h3 : (applyStage ({ cfg with
            outgoing := cfg.outgoing ∪ cfg.incoming }, ⟨[], base⟩) ccs).1.incoming = ∅
        · simp only [if_pos h3]
          exact iff_of_true rfl (Or.inr (Or.inr (Or.inl h3)))
        · simp only [if_neg h3, enterJointStage]
          cases hchk : checkInvariants
              (setAutoLeave (applyStage ({ cfg with
                outgoing := cfg.outgoing ∪ cfg.incoming }, ⟨[], base⟩) ccs).1 al)
              (applyStage ({ cfg with outgoing := cfg.outgoing ∪ cfg.incoming },
                ⟨[], base⟩) ccs).2 with
          | error e =>
            exact iff_of_true rfl
              (Or.inr (Or.inr (Or.inr fun hok => Except.noConfusion hok)))
          | ok u =>
            cases u
            refine iff_of_false (by simp [except_isOk_ok]) ?_
            rintro (hc | hc | hc | hc)
            · exact hc h1
            · exact h2 hc
            · exact h3 hc
            · exact hc rfl
    · simp only [enterJoint, if_pos (show cfg.outgoing ≠ ∅ from h1)]
      exact iff_of_true rfl (Or.inl h1)
  · by_cases h1 : cfg.outgoing = ∅
    · simp only [leaveJoint, if_pos h1]
      exact iff_of_true rfl (Or.inl h1)
    · simp only [leaveJoint, if_neg h1, h]
      cases hchk : checkInvariants (leaveJointStage cfg base).1
          (leaveJointStage cfg base).2 with
      | error e =>
        exact iff_of_true rfl (Or.inr fun hok => Except.noConfusion hok)
      | ok u =>
        cases u
        refine iff_of_false (by simp [except_isOk_ok]) ?_
        rintro (hc | hc)
        · exact h1 hc
        · exact hc rfl
  · by_cases h1 : cfg.outgoing = ∅
    · have hcond : ¬ cfg.outgoing ≠ ∅ := fun hc => hc h1
      simp only [simpleChange, h, if_neg hcond, applyCcs]
      by_cases h3 : (applyStage (cfg, ⟨[], base⟩) ccs).1.incoming = ∅
      · simp only [if_pos h3]
        exact iff_of_true rfl (Or.inr (Or.inl h3))
      · simp only [if_neg h3]
        by_cases h4 : 1 < (((applyStage (cfg, ⟨[], base⟩) ccs).1.incoming \ cfg.incoming) ∪
            (cfg.incoming \ (applyStage (cfg, ⟨[], base⟩) ccs).1.incoming)).card
        · simp only [if_pos h4]
          exact iff_of_true rfl (Or.inr (Or.inr (Or.inl h4)))
        · simp only [if_neg h4]
          cases hchk : checkInvariants (applyStage (cfg, ⟨[], base⟩) ccs).1
              (applyStage (cfg, ⟨[], base⟩) ccs).2 with
          | error e =>
            exact iff_of_true rfl
              (Or.inr (Or.inr (Or.inr fun hok => Except.noConfusion hok)))
          | ok u =>
            cases u
            refine iff_of_false (by simp [except_isOk_ok]) ?_
            rintro (hc | hc | hc | hc)
            · exact hc h1
            · exact h3 hc
            · exact h4 hc
            · exact hc rfl
    · simp only [simpleChange, if_pos (show cfg.outgoing ≠ ∅ from h1)]
      exact iff_of_true rfl (Or.inl h1)

theorem changer_error_conditions_witness :
    ((enterJoint cfgC7 {1} false []).isOk = false ↔
      (cfgC7.outgoing ≠ ∅ ∨ cfgC7.incoming = ∅ ∨
        (enterJointStage cfgC7 {1} false []).1.incoming = ∅ ∨
        checkInvariants (enterJointStage cfgC7 {1} false []).1
          (enterJointStage cfgC7 {1} false []).2 ≠ .ok ())) ∧
    ((leaveJoint cfgC7 {1}).isOk = false ↔
      (cfgC7.outgoing = ∅ ∨
        checkInvariants (leaveJointStage cfgC7 {1}).1
          (leaveJointStage cfgC7 {1}).2 ≠ .ok ())) ∧
    ((simpleChange cfgC7 {1} []).isOk = false ↔
      (cfgC7.outgoing ≠ ∅ ∨
        (applyStage (cfgC7, ⟨[], {1}⟩) []).1.incoming = ∅ ∨
        1 < (((applyStage (cfgC7, ⟨[], {1}⟩) []).1.incoming \ cfgC7.incoming) ∪
          (cfgC7.incoming \ (applyStage (cfgC7, ⟨[], {1}⟩) []).1.incoming)).card ∨
        checkInvariants (applyStage (cfgC7, ⟨[], {1}⟩) []).1
          (applyStage (cfgC7, ⟨[], {1}⟩) []).2 ≠ .ok ())) :=
  changer_error_conditions cfgC7 {1} false [] (by decide)

end Raft
